import Mathlib

/-!
# Verification of the `colour` gradient program

Shallow embedding of `src/main.rs` (crate `colour`): an `RGB` colour type
with hex parsing, blending, scalar multiplication and wrapping addition,
and a `Gradient` built by blending two endpoint colours with weights
`idx/steps` and `(steps-idx)/steps` computed in 64-bit floating point.

Floating-point values are modelled as rational numbers together with an
explicit round-to-nearest-even operation `rnd` at 53 bits of precision
(binary64 with unbounded exponent; every value arising in this program is
far inside the normal range of binary64, so the model agrees with IEEE 754
binary64 arithmetic on all inputs considered here).  `u8` values are
modelled as `Nat` with explicit `% 256` where overflow matters, and
fallible operations (assertion failures / `panic`) return `Option`.
-/

/-- Round a rational to the nearest integer, ties to even
(the rounding used by IEEE 754 round-to-nearest-even at integer scale). -/
def rne (q : ℚ) : ℤ :=
  if q - (⌊q⌋ : ℚ) < 1/2 then ⌊q⌋
  else if 1/2 < q - (⌊q⌋ : ℚ) then ⌊q⌋ + 1
  else if ⌊q⌋ % 2 = 0 then ⌊q⌋ else ⌊q⌋ + 1

/-- The binade exponent of a positive rational: `⌊log₂ q⌋`. -/
def f64exp (q : ℚ) : ℤ := Int.log 2 q

/-- Round a nonnegative rational to the nearest binary64 value
(round-to-nearest, ties-to-even, 53-bit significand, unbounded exponent).
Every float produced by the Rust program lies well inside the normal range
of binary64, where this is exactly IEEE 754 rounding. -/
def rnd (q : ℚ) : ℚ :=
  if q = 0 then 0 else (rne (q * 2 ^ ((52 : ℤ) - f64exp q)) : ℚ) * 2 ^ (f64exp q - 52)

/-- IEEE binary64 addition on model values: round the exact sum. -/
def f64add (x y : ℚ) : ℚ := rnd (x + y)

/-- IEEE binary64 multiplication on model values: round the exact product. -/
def f64mul (x y : ℚ) : ℚ := rnd (x * y)

/-- IEEE binary64 division on model values: round the exact quotient.
(Only ever applied with a nonzero divisor in the theorems below.) -/
def f64div (x y : ℚ) : ℚ := rnd (x / y)

/-- The `usize as f64` / `u8 as f64` conversion: round the integer. -/
def natToF64 (n : ℕ) : ℚ := rnd (n : ℚ)

theorem rne_intCast (n : ℤ) : rne (n : ℚ) = n := by
  unfold rne
  simp

theorem rne_sub_le (q : ℚ) : |(rne q : ℚ) - q| ≤ 1/2 := by
  unfold rne
  have h0 : (⌊q⌋ : ℚ) ≤ q := Int.floor_le q
  have h1 : q < (⌊q⌋ : ℚ) + 1 := Int.lt_floor_add_one q
  by_cases hlt : q - (⌊q⌋ : ℚ) < 1/2
  · simp only [hlt, if_true]
    rw [abs_le]
    constructor <;> linarith
  · simp only [hlt, if_false]
    by_cases hgt : 1/2 < q - (⌊q⌋ : ℚ)
    · simp only [hgt, if_true]
      rw [abs_le]
      push_cast
      constructor <;> linarith
    · have heq : q - (⌊q⌋ : ℚ) = 1/2 := le_antisymm (not_lt.mp hgt) (not_lt.mp hlt)
      by_cases hev : ⌊q⌋ % 2 = 0
      · simp only [hgt, if_false, hev, if_true]
        rw [abs_le]
        constructor <;> linarith
      · simp only [hgt, if_false, hev, if_false]
        rw [abs_le]
        push_cast
        constructor <;> linarith

theorem rne_ge (q : ℚ) : q - 1/2 ≤ (rne q : ℚ) := by
  have := rne_sub_le q
  rw [abs_le] at this
  linarith [this.1]

theorem rne_le (q : ℚ) : (rne q : ℚ) ≤ q + 1/2 := by
  have := rne_sub_le q
  rw [abs_le] at this
  linarith [this.2]

theorem f64exp_bracket {q : ℚ} (hq : 0 < q) :
    (2 : ℚ) ^ f64exp q ≤ q ∧ q < (2 : ℚ) ^ (f64exp q + 1) := by
  constructor
  · have h := Int.zpow_log_le_self (b := 2) (r := q) (by norm_num) hq
    simpa [f64exp] using h
  · have h := Int.lt_zpow_succ_log_self (b := 2) (r := q) (by norm_num)
    simpa [f64exp] using h

theorem f64exp_eq {q : ℚ} {k : ℤ} (h1 : (2 : ℚ) ^ k ≤ q) (h2 : q < (2 : ℚ) ^ (k + 1)) :
    f64exp q = k := by
  have hq : 0 < q := lt_of_lt_of_le (by positivity) h1
  have hk1 : k ≤ Int.log 2 q := by
    rw [← Int.zpow_le_iff_le_log (by norm_num) hq]
    exact_mod_cast h1
  have hk2 : Int.log 2 q < k + 1 := by
    rw [← Int.lt_zpow_iff_log_lt (by norm_num) hq]
    exact_mod_cast h2
  have : Int.log 2 q ≤ k := by omega
  exact le_antisymm this hk1

theorem rnd_zero : rnd 0 = 0 := by unfold rnd; simp

theorem rnd_eq (q : ℚ) (hq : q ≠ 0) :
    rnd q = (rne (q * 2 ^ ((52 : ℤ) - f64exp q)) : ℚ) * 2 ^ (f64exp q - 52) := by
  unfold rnd
  simp [hq]

theorem rnd_err {q : ℚ} (hq : 0 < q) : |rnd q - q| ≤ 2 ^ (f64exp q - 53) := by
  rw [rnd_eq q (ne_of_gt hq)]
  set e := f64exp q with he
  set t := q * 2 ^ ((52 : ℤ) - e) with ht
  have hpow : (0 : ℚ) < 2 ^ (e - 52) := by positivity
  have key : (rne t : ℚ) * 2 ^ (e - 52) - q = ((rne t : ℚ) - t) * 2 ^ (e - 52) := by
    rw [sub_mul, ht]
    congr 1
    rw [mul_assoc, ← zpow_add₀ (by norm_num : (2:ℚ) ≠ 0)]
    simp
  rw [key, abs_mul, abs_of_pos hpow]
  calc |(rne t : ℚ) - t| * 2 ^ (e - 52) ≤ (1/2) * 2 ^ (e - 52) := by
        exact mul_le_mul_of_nonneg_right (rne_sub_le t) (le_of_lt hpow)
    _ = 2 ^ (e - 53) := by
        rw [show e - 53 = (e - 52) + (-1) by ring, zpow_add₀ (by norm_num : (2:ℚ) ≠ 0)]
        ring

theorem rnd_exact {q : ℚ} (hq : 0 < q) {m : ℤ} (h : q = (m : ℚ) * 2 ^ (f64exp q - 52)) :
    rnd q = q := by
  rw [rnd_eq q (ne_of_gt hq)]
  set e := f64exp q with he
  have ht : q * 2 ^ ((52 : ℤ) - e) = (m : ℚ) := by
    rw [h, mul_assoc, ← zpow_add₀ (by norm_num : (2:ℚ) ≠ 0)]
    simp
  rw [ht, rne_intCast, ← ht]
  rw [mul_assoc, ← zpow_add₀ (by norm_num : (2:ℚ) ≠ 0)]
  simp

theorem rnd_one : rnd 1 = 1 := by
  have he : f64exp 1 = 0 := f64exp_eq (by norm_num) (by norm_num)
  refine rnd_exact (m := 2 ^ 52) (by norm_num) ?_
  rw [he]
  norm_num

/-! ## The `RGB` colour type (`src/main.rs`) -/

/-- The `RGB` struct: three `u8` channels, modelled as `Nat`
(well-formed values are `≤ 255`, see `RGB.wf`). -/
structure RGB where
  r : ℕ
  g : ℕ
  b : ℕ
deriving DecidableEq

/-- Model of `RGB::new`. -/
def RGB.new (r g b : ℕ) : RGB := ⟨r, g, b⟩

/-- Model of `RGB::default`: black. -/
def RGB.default : RGB := RGB.new 0 0 0

/-- Well-formedness of a modelled colour: every channel fits in a `u8`. -/
def RGB.wf (c : RGB) : Prop := c.r ≤ 255 ∧ c.g ≤ 255 ∧ c.b ≤ 255

/-- Rust's `as u8` cast applied to an `f64`: saturate to `[0, 255]` and
truncate toward zero (all values cast in this program are nonnegative). -/
def f64toU8 (q : ℚ) : ℕ := min 255 ⌊q⌋.toNat

/-- Model of `impl Mul<f64> for RGB`: each channel is `(channel as f64 * rhs) as u8`. -/
def RGB.mulF (c : RGB) (rhs : ℚ) : RGB :=
  ⟨f64toU8 (f64mul (natToF64 c.r) rhs),
   f64toU8 (f64mul (natToF64 c.g) rhs),
   f64toU8 (f64mul (natToF64 c.b) rhs)⟩

/-- Model of `impl Add<RGB> for RGB`: per-channel 8-bit addition with no overflow
protection; on overflow the sum wraps modulo 256 (release-mode semantics,
which is also the behaviour the spec documents). -/
def RGB.add (c o : RGB) : RGB :=
  ⟨(c.r + o.r) % 256, (c.g + o.g) % 256, (c.b + o.b) % 256⟩

/-- Model of `RGB::blend`.  The source literally writes `asser_eq!(alpha + beta, 1f64)`,
which is not a defined macro — the crate does not compile as written; this is
evidently a typo for `assert_eq!`, and the intended semantics is modelled:
`none` models the assertion failure (panic).  The compared sum
`alpha + beta` is an f64 addition, hence rounded. -/
def RGB.blend (c o : RGB) (alpha beta : ℚ) : Option RGB :=
  if f64add alpha beta = 1 then some (RGB.add (c.mulF alpha) (o.mulF beta)) else none

/-- Model of `RGB::to_tuple`. -/
def RGB.to_tuple (c : RGB) : ℕ × ℕ × ℕ := (c.r, c.g, c.b)

/-! ## Hex parsing and display

Rust strings are UTF-8 byte sequences and `from_hex_string` slices the string
by bytes, so strings are modelled as lists of bytes (`List ℕ`). -/

/-- The regex character class `[A-Fa-f0-9]` on one byte. -/
def isHexDigitByte (c : ℕ) : Bool :=
  (48 ≤ c && c ≤ 57) || (65 ≤ c && c ≤ 70) || (97 ≤ c && c ≤ 102)

/-- Value of a hex-digit byte, as computed by `u8::from_str_radix(_, 16)`
(only applied to bytes satisfying `isHexDigitByte`). -/
def hexVal (c : ℕ) : ℕ :=
  if 48 ≤ c ∧ c ≤ 57 then c - 48
  else if 65 ≤ c ∧ c ≤ 70 then c - 55
  else c - 87

/-- The regex check `Regex::new("^#[A-Fa-f0-9]{6}").is_match(s)`: the string
starts with `#` followed by six hex digits; trailing bytes are ignored. -/
def hexRegexMatches (s : List ℕ) : Bool :=
  match s with
  | c0 :: c1 :: c2 :: c3 :: c4 :: c5 :: c6 :: _ =>
      (c0 == 35) && isHexDigitByte c1 && isHexDigitByte c2 && isHexDigitByte c3 &&
        isHexDigitByte c4 && isHexDigitByte c5 && isHexDigitByte c6
  | _ => false

/-- Model of `RGB::from_hex_string`: panic (`none`) when the regex does not match;
otherwise decode the hex-digit pairs at byte positions 1–2, 3–4, 5–6. -/
def RGB.from_hex_string (s : List ℕ) : Option RGB :=
  if hexRegexMatches s then
    match s with
    | _ :: c1 :: c2 :: c3 :: c4 :: c5 :: c6 :: _ =>
        some (RGB.new (hexVal c1 * 16 + hexVal c2) (hexVal c3 * 16 + hexVal c4)
          (hexVal c5 * 16 + hexVal c6))
    | _ => none
  else none

/-- Lowercase hex digit byte of a value `< 16` (as printed by `{:02x}`). -/
def hexDigitChar (d : ℕ) : ℕ := if d < 10 then 48 + d else 87 + d

/-- The two bytes `{:02x}` prints for a `u8` value. -/
def toHex2 (v : ℕ) : List ℕ := [hexDigitChar (v / 16), hexDigitChar (v % 16)]

/-- Model of `impl fmt::Display for RGB`: the bytes of `#{:02x}{:02x}{:02x}`. -/
def RGB.display (c : RGB) : List ℕ := 35 :: (toHex2 c.r ++ toHex2 c.g ++ toHex2 c.b)

/-- ASCII lowercasing of one byte. -/
def toLowerByte (c : ℕ) : ℕ := if 65 ≤ c ∧ c ≤ 90 then c + 32 else c

/-! ## The gradient (`Gradient` in `src/main.rs`) -/

/-- The weight `a = idx as f64 / steps as f64` of the gradient loop. -/
def weightA (steps idx : ℕ) : ℚ := f64div (natToF64 idx) (natToF64 steps)

/-- The weight `b = (steps - idx) as f64 / steps as f64` of the gradient loop
(`idx < steps` in every loop iteration, so `Nat` subtraction is faithful). -/
def weightB (steps idx : ℕ) : ℚ := f64div (natToF64 (steps - idx)) (natToF64 steps)

/-- The gradient loop body at index `idx`: `start.blend(end, a, b)`;
`none` models the panic of the (intended) assertion inside `blend`. -/
def gradientSample (start end_ : RGB) (steps idx : ℕ) : Option RGB :=
  RGB.blend start end_ (weightA steps idx) (weightB steps idx)

/-- Run a fallible function over a list, in order, failing the whole run as
soon as one application fails (a panic inside the loop aborts everything). -/
def optionMap {α β : Type} (f : α → Option β) : List α → Option (List β)
  | [] => some []
  | a :: l => (f a).bind fun b => (optionMap f l).map fun bs => b :: bs

/-- Model of `Gradient::generate_gradient`: overwrites each slot of a vector of length
`steps` with the blend at its index; `none` when any blend's assertion fails
(the whole call panics). -/
def generate_gradient (start end_ : RGB) (steps : ℕ) : Option (List RGB) :=
  optionMap (gradientSample start end_ steps) (List.range steps)

/-- The `Gradient` struct.  The source field named `end` is called `stop`
here (`end` is a Lean keyword). -/
structure Gradient where
  gradient : List RGB
  start : RGB
  stop : RGB
  steps : ℕ

/-- Model of `Gradient::new` (panics — `none` — exactly when `generate_gradient` does). -/
def Gradient.new (start end_ : RGB) (steps : ℕ) : Option Gradient :=
  (generate_gradient start end_ steps).map fun g => ⟨g, start, end_, steps⟩

/-- The in-memory image produced by `generate_image` before saving:
a width, a height, and the pixel at each (row, column). -/
structure Image where
  width : ℕ
  height : ℕ
  pix : ℕ → ℕ → RGB

/-- Model of `Gradient::generate_image` (the image construction; saving the file is
I/O and not modelled): `ImageBuffer::new(600, self.steps.try_into()?)` fails
(`none`) when `steps` does not fit in a `u32`; the row loop sets every pixel
of row `row_idx` to `self.gradient[row_idx]` (`getD` is faithful because the
rows enumerated lie below `steps`, the gradient's length). -/
def Gradient.generate_image (g : Gradient) : Option Image :=
  if g.steps < 2 ^ 32 then
    some ⟨600, g.steps, fun row _col => g.gradient.getD row RGB.default⟩
  else none

/-! ## Properties of the rounding model -/

theorem rne_eq_floor {q : ℚ} (h : q - (⌊q⌋ : ℚ) < 1/2) : rne q = ⌊q⌋ := by
  unfold rne
  rw [if_pos h]

theorem rne_eq_ceil {q : ℚ} (h : 1/2 < q - (⌊q⌋ : ℚ)) : rne q = ⌊q⌋ + 1 := by
  unfold rne
  rw [if_neg (by linarith), if_pos h]

theorem rne_eq_tie {q : ℚ} (h : q - (⌊q⌋ : ℚ) = 1/2) :
    rne q = (if ⌊q⌋ % 2 = 0 then ⌊q⌋ else ⌊q⌋ + 1) := by
  unfold rne
  rw [if_neg (by linarith), if_neg (by linarith)]

theorem two_zpow_pos (n : ℤ) : (0 : ℚ) < 2 ^ n := by positivity

theorem two_zpow_le_iff {m n : ℤ} : (2 : ℚ) ^ m ≤ 2 ^ n ↔ m ≤ n :=
  zpow_le_zpow_iff_right₀ (by norm_num)

theorem f64exp_le_of_lt {q : ℚ} {k : ℤ} (hq : 0 < q) (h : q < (2 : ℚ) ^ (k + 1)) :
    f64exp q ≤ k := by
  by_contra hc
  push_neg at hc
  have h1 : (2 : ℚ) ^ (k + 1) ≤ 2 ^ f64exp q := two_zpow_le_iff.mpr (by omega)
  have h2 := (f64exp_bracket hq).1
  linarith

theorem rnd_natCast {n : ℕ} (hn : n ≤ 2 ^ 53) : rnd (n : ℚ) = (n : ℚ) := by
  rcases Nat.eq_zero_or_pos n with h0 | h0
  · subst h0
    simpa using rnd_zero
  have hq : (0 : ℚ) < (n : ℚ) := by exact_mod_cast h0
  have hlt : (n : ℚ) < (2 : ℚ) ^ ((53 : ℤ) + 1) := by
    have : (n : ℚ) ≤ (2 : ℚ) ^ (53 : ℕ) := by exact_mod_cast hn
    have h2 : ((2 : ℚ) ^ (53 : ℕ) : ℚ) < (2 : ℚ) ^ ((54 : ℕ)) := by norm_num
    calc (n : ℚ) ≤ (2 : ℚ) ^ (53 : ℕ) := this
      _ < (2 : ℚ) ^ (54 : ℕ) := h2
      _ = (2 : ℚ) ^ ((53 : ℤ) + 1) := by norm_num
  have he : f64exp (n : ℚ) ≤ 53 := f64exp_le_of_lt hq hlt
  set e := f64exp (n : ℚ) with hedef
  rcases le_or_lt e 52 with h52 | h53
  · -- the scaled value is an integer, so rounding is exact
    refine rnd_exact hq (m := n * 2 ^ (52 - e).toNat) ?_
    push_cast
    rw [← zpow_natCast (2 : ℚ) (52 - e).toNat, Int.toNat_of_nonneg (by omega), mul_assoc,
      ← zpow_add₀ (by norm_num : (2:ℚ) ≠ 0)]
    simp
  · -- e = 53 forces n = 2^53
    have he53 : e = 53 := by omega
    have hlow : (2 : ℚ) ^ (53 : ℤ) ≤ (n : ℚ) := by
      have := (f64exp_bracket hq).1
      rwa [← hedef, he53] at this
    have hn' : n = 2 ^ 53 := by
      have : (2 : ℚ) ^ (53 : ℤ) = ((2 ^ 53 : ℕ) : ℚ) := by norm_num
      rw [this] at hlow
      have := Nat.cast_le (α := ℚ).mp hlow
      omega
    refine rnd_exact hq (m := 2 ^ 52) ?_
    rw [← hedef, he53, hn']
    norm_num

theorem natToF64_eq {n : ℕ} (hn : n ≤ 2 ^ 53) : natToF64 n = (n : ℚ) := rnd_natCast hn

theorem rnd_le_mul {q : ℚ} (hq : 0 < q) : rnd q ≤ q * (1 + 2 ^ (-(53 : ℤ))) := by
  have herr := rnd_err hq
  rw [abs_le] at herr
  have hb : (2 : ℚ) ^ (f64exp q - 53) ≤ q * 2 ^ (-(53 : ℤ)) := by
    have h1 : (2 : ℚ) ^ f64exp q ≤ q := (f64exp_bracket hq).1
    calc (2 : ℚ) ^ (f64exp q - 53) = 2 ^ f64exp q * 2 ^ (-(53:ℤ)) := by
          rw [← zpow_add₀ (by norm_num : (2:ℚ) ≠ 0)]
          ring_nf
      _ ≤ q * 2 ^ (-(53 : ℤ)) :=
          mul_le_mul_of_nonneg_right h1 (le_of_lt (two_zpow_pos _))
  nlinarith [herr.2]

theorem mul_le_rnd {q : ℚ} (hq : 0 < q) : q * (1 - 2 ^ (-(53 : ℤ))) ≤ rnd q := by
  have herr := rnd_err hq
  rw [abs_le] at herr
  have hb : (2 : ℚ) ^ (f64exp q - 53) ≤ q * 2 ^ (-(53 : ℤ)) := by
    have h1 : (2 : ℚ) ^ f64exp q ≤ q := (f64exp_bracket hq).1
    calc (2 : ℚ) ^ (f64exp q - 53) = 2 ^ f64exp q * 2 ^ (-(53:ℤ)) := by
          rw [← zpow_add₀ (by norm_num : (2:ℚ) ≠ 0)]
          ring_nf
      _ ≤ q * 2 ^ (-(53 : ℤ)) :=
          mul_le_mul_of_nonneg_right h1 (le_of_lt (two_zpow_pos _))
  nlinarith [herr.1]

theorem rnd_pos {q : ℚ} (hq : 0 < q) : 0 < rnd q := by
  have := mul_le_rnd hq
  have h1 : (0 : ℚ) < 1 - 2 ^ (-(53 : ℤ)) := by norm_num
  nlinarith

theorem rnd_nonneg {q : ℚ} (hq : 0 ≤ q) : 0 ≤ rnd q := by
  rcases eq_or_lt_of_le hq with h | h
  · rw [← h, rnd_zero]
  · exact le_of_lt (rnd_pos h)

theorem rnd_one_add {d : ℚ} (h : |d| ≤ 2 ^ (-(54 : ℤ))) : rnd (1 + d) = 1 := by
  have hd54 : (2 : ℚ) ^ (-(54 : ℤ)) = 1 / 2 ^ 54 := by norm_num
  rw [hd54] at h
  rw [abs_le] at h
  rcases lt_trichotomy d 0 with hneg | hzero | hpos
  · -- 1 + d ∈ [1 - 2^-54, 1): binade [1/2, 1), spacing 2^-53
    have hq : (0 : ℚ) < 1 + d := by nlinarith [h.1]
    have he : f64exp (1 + d) = -1 := by
      refine f64exp_eq ?_ ?_
      · rw [show (2:ℚ) ^ (-1 : ℤ) = 1/2 by norm_num]
        nlinarith [h.1]
      · norm_num
        linarith
    rw [rnd_eq _ (ne_of_gt hq), he]
    have harg : (1 + d) * 2 ^ ((52 : ℤ) - (-1)) = 2 ^ 53 + d * 2 ^ 53 := by
      rw [show ((52 : ℤ) - (-1)) = (53 : ℤ) by ring]
      rw [show ((2:ℚ) ^ (53 : ℤ)) = 2 ^ (53 : ℕ) by norm_num]
      ring
    rw [harg]
    have hfl : ⌊(2 ^ 53 + d * 2 ^ 53 : ℚ)⌋ = 2 ^ 53 - 1 := by
      rw [Int.floor_eq_iff]
      constructor
      · push_cast
        nlinarith [h.1]
      · push_cast
        nlinarith
    have hfrac : (2 ^ 53 + d * 2 ^ 53 : ℚ) - ((2 ^ 53 - 1 : ℤ) : ℚ) = 1 + d * 2 ^ 53 := by
      push_cast
      ring
    rcases eq_or_lt_of_le (show (1:ℚ)/2 ≤ 1 + d * 2 ^ 53 by nlinarith [h.1]) with htie | hgt
    · have : rne (2 ^ 53 + d * 2 ^ 53 : ℚ) = 2 ^ 53 := by
        rw [rne_eq_tie (by rw [hfl, hfrac, ← htie]), hfl]
        norm_num
      rw [this]
      push_cast
      rw [show ((2:ℚ) ^ (-53 : ℤ)) = 1 / 2 ^ 53 by norm_num]
      norm_num
    · have : rne (2 ^ 53 + d * 2 ^ 53 : ℚ) = 2 ^ 53 := by
        rw [rne_eq_ceil (by rw [hfl, hfrac]; linarith), hfl]
        ring
      rw [this]
      push_cast
      rw [show ((2:ℚ) ^ (-53 : ℤ)) = 1 / 2 ^ 53 by norm_num]
      norm_num
  · rw [hzero]
    simpa using rnd_one
  · -- 1 + d ∈ (1, 1 + 2^-54]: binade [1, 2), spacing 2^-52
    have hq : (0 : ℚ) < 1 + d := by linarith
    have he : f64exp (1 + d) = 0 := by
      refine f64exp_eq ?_ ?_
      · norm_num
        linarith
      · norm_num
        nlinarith [h.2]
    rw [rnd_eq _ (ne_of_gt hq), he]
    have harg : (1 + d) * 2 ^ ((52 : ℤ) - 0) = 2 ^ 52 + d * 2 ^ 52 := by
      rw [show ((52 : ℤ) - 0) = (52 : ℤ) by ring]
      rw [show ((2:ℚ) ^ (52 : ℤ)) = 2 ^ (52 : ℕ) by norm_num]
      ring
    rw [harg]
    have hfl : ⌊(2 ^ 52 + d * 2 ^ 52 : ℚ)⌋ = 2 ^ 52 := by
      rw [Int.floor_eq_iff]
      constructor
      · push_cast
        nlinarith
      · push_cast
        nlinarith [h.2]
    have : rne (2 ^ 52 + d * 2 ^ 52 : ℚ) = 2 ^ 52 := by
      rw [rne_eq_floor (by rw [hfl]; push_cast; nlinarith [h.2]), hfl]
    rw [this]
    push_cast
    rw [show ((2:ℚ) ^ (-52 : ℤ)) = 1 / 2 ^ 52 by norm_num]
    norm_num

/-- Key rounding fact: for `0 < x < 1/2`, the roundings of `x` and of `1 - x`
sum to within `2^-54` of `1`.  The two roundings happen on nested grids —
`rnd x` on a grid of spacing `2^(e-52) ≤ 2^-54` dividing `2^-53`, and
`rnd (1-x)` on the spacing-`2^-53` grid of the binade `[1/2, 1)` — so their
total deviation, an integer multiple of the fine spacing, is at most half the
coarse spacing. -/
theorem rnd_add_rnd_compl {x : ℚ} (h0 : 0 < x) (hx : x < 1/2) :
    |rnd x + rnd (1 - x) - 1| ≤ 2 ^ (-(54 : ℤ)) := by
  have hy0 : (0:ℚ) < 1 - x := by linarith
  have hyh : (1:ℚ)/2 < 1 - x := by linarith
  have hy1 : (1:ℚ) - x < 1 := by linarith
  have hey : f64exp (1 - x) = -1 := by
    refine f64exp_eq ?_ ?_
    · rw [show (2:ℚ) ^ (-1 : ℤ) = 1/2 by norm_num]
      linarith
    · rw [show ((-1:ℤ) + 1) = 0 by ring]
      simpa using hy1
  have he2 : f64exp x ≤ -2 := by
    refine f64exp_le_of_lt h0 ?_
    rw [show ((-2:ℤ) + 1) = -1 by ring, show (2:ℚ) ^ (-1 : ℤ) = 1/2 by norm_num]
    linarith
  set e := f64exp x with hedef
  set A := rne (x * 2 ^ ((52 : ℤ) - e)) with hAdef
  set M := rne ((1 - x) * 2 ^ ((52 : ℤ) - f64exp (1 - x))) with hMdef
  have ha : rnd x = (A : ℚ) * 2 ^ (e - 52) := by
    rw [rnd_eq x (ne_of_gt h0)]
  have hb : rnd (1 - x) = (M : ℚ) * 2 ^ (-(53) : ℤ) := by
    rw [rnd_eq _ (ne_of_gt hy0), hMdef, hey]
    norm_num
  have haerr : |rnd x - x| ≤ 2 ^ (e - 53) := rnd_err h0
  have hberr : |rnd (1 - x) - (1 - x)| ≤ 2 ^ (-(54) : ℤ) := by
    have := rnd_err hy0
    rwa [hey, show ((-1:ℤ) - 53) = -54 by ring] at this
  -- the deviation is an integer multiple of the fine spacing 2^(e-52)
  set K : ℤ := A + M * 2 ^ ((-1 - e).toNat) - 2 ^ ((52 - e).toNat) with hKdef
  have hpow1 : ((2:ℚ) ^ ((-1 - e).toNat)) * 2 ^ (e - 52) = 2 ^ (-(53):ℤ) := by
    rw [← zpow_natCast (2:ℚ), Int.toNat_of_nonneg (by omega),
      ← zpow_add₀ (by norm_num : (2:ℚ) ≠ 0)]
    congr 1
    ring
  have hpow2 : ((2:ℚ) ^ ((52 - e).toNat)) * 2 ^ (e - 52) = 1 := by
    rw [← zpow_natCast (2:ℚ), Int.toNat_of_nonneg (by omega),
      ← zpow_add₀ (by norm_num : (2:ℚ) ≠ 0)]
    rw [show (52 - e + (e - 52)) = (0:ℤ) by ring]
    norm_num
  have hd : rnd x + rnd (1 - x) - 1 = (K : ℚ) * 2 ^ (e - 52) := by
    rw [ha, hb, hKdef]
    push_cast
    rw [sub_mul, add_mul, mul_assoc, hpow1, hpow2]
  -- triangle inequality gives the raw bound (g/2 + 2^-54)
  have htri : |rnd x + rnd (1 - x) - 1| ≤ 2 ^ (e - 53) + 2 ^ (-(54) : ℤ) := by
    have : rnd x + rnd (1 - x) - 1 = (rnd x - x) + (rnd (1 - x) - (1 - x)) := by ring
    rw [this]
    calc |(rnd x - x) + (rnd (1 - x) - (1 - x))|
        ≤ |rnd x - x| + |rnd (1 - x) - (1 - x)| := abs_add _ _
      _ ≤ 2 ^ (e - 53) + 2 ^ (-(54) : ℤ) := add_le_add haerr hberr
  -- integrality sharpens it to 2^-54
  set N : ℕ := (-2 - e).toNat with hNdef
  have hKbound : |(K : ℚ)| ≤ 2 ^ N + 1/2 := by
    have hg : (0:ℚ) < 2 ^ (e - 52) := two_zpow_pos _
    have h1 : |(K : ℚ)| * 2 ^ (e - 52) ≤ 2 ^ (e - 53) + 2 ^ (-(54) : ℤ) := by
      rw [← abs_of_pos hg, ← abs_mul, ← hd]
      exact htri
    have h2 : (2:ℚ) ^ (e - 53) = (1/2) * 2 ^ (e - 52) := by
      rw [show (e - 53) = (-1) + (e - 52) by ring, zpow_add₀ (by norm_num : (2:ℚ) ≠ 0)]
      norm_num
    have h3 : (2:ℚ) ^ (-(54) : ℤ) = 2 ^ N * 2 ^ (e - 52) := by
      rw [← zpow_natCast (2:ℚ) N, hNdef, Int.toNat_of_nonneg (by omega),
        ← zpow_add₀ (by norm_num : (2:ℚ) ≠ 0)]
      congr 1
      ring
    rw [h2, h3] at h1
    have := le_of_mul_le_mul_right (by linarith [h1] : |(K : ℚ)| * 2 ^ (e - 52) ≤ (2 ^ N + 1/2) * 2 ^ (e - 52)) hg
    exact this
  have hKint : |K| ≤ 2 ^ N := by
    have hcast : |(K : ℚ)| = ((|K| : ℤ) : ℚ) := by
      push_cast
      rfl
    rw [hcast] at hKbound
    have : ((|K| : ℤ) : ℚ) < ((2 ^ N + 1 : ℤ) : ℚ) := by
      push_cast
      linarith
    have hKlt : |K| < 2 ^ N + 1 := by exact_mod_cast this
    omega
  rw [hd, abs_mul, abs_of_pos (two_zpow_pos (e - 52))]
  calc |(K:ℚ)| * 2 ^ (e - 52) ≤ (2^N : ℚ) * 2 ^ (e - 52) := by
        refine mul_le_mul_of_nonneg_right ?_ (le_of_lt (two_zpow_pos _))
        have : ((|K| : ℤ) : ℚ) ≤ ((2 ^ N : ℤ) : ℚ) := by exact_mod_cast hKint
        calc |(K:ℚ)| = ((|K| : ℤ) : ℚ) := by push_cast; rfl
          _ ≤ ((2 ^ N : ℤ) : ℚ) := this
          _ = (2^N : ℚ) := by push_cast; rfl
    _ = 2 ^ (-(54) : ℤ) := by
        rw [← zpow_natCast (2:ℚ) N, hNdef, Int.toNat_of_nonneg (by omega),
          ← zpow_add₀ (by norm_num : (2:ℚ) ≠ 0)]
        congr 1
        ring

theorem rnd_half : rnd (1/2 : ℚ) = 1/2 := by
  have he : f64exp (1/2 : ℚ) = -1 := by
    refine f64exp_eq ?_ ?_ <;> norm_num
  refine rnd_exact (m := 2 ^ 52) (by norm_num) ?_
  rw [he]
  norm_num

/-- For any positive step count the weight pair at index 0 is `(0, 1)`
(no bound on `steps` is needed: `steps as f64 / steps as f64` is exactly 1). -/
theorem weightA_zero {steps : ℕ} : weightA steps 0 = 0 := by
  unfold weightA natToF64
  rw [Nat.cast_zero, rnd_zero]
  unfold f64div
  rw [zero_div, rnd_zero]

theorem weightB_zero {steps : ℕ} (h1 : 1 ≤ steps) : weightB steps 0 = 1 := by
  unfold weightB f64div
  have hpos : (0:ℚ) < (steps : ℚ) := by exact_mod_cast h1
  have hS : 0 < natToF64 steps := by
    unfold natToF64
    exact rnd_pos hpos
  rw [Nat.sub_zero, div_self (ne_of_gt hS), rnd_one]

/-- For `1 ≤ steps ≤ 2^53` the f64 sum of the two blend weights at any index
`idx < steps` is exactly `1`, so the blend assertion always passes. -/
theorem weights_sum {steps idx : ℕ} (h1 : 1 ≤ steps) (h53 : steps ≤ 2 ^ 53)
    (hi : idx < steps) : f64add (weightA steps idx) (weightB steps idx) = 1 := by
  have hidx53 : idx ≤ 2 ^ 53 := le_trans (le_of_lt hi) h53
  have hsub53 : steps - idx ≤ 2 ^ 53 := le_trans (Nat.sub_le _ _) h53
  have hspos : (0:ℚ) < (steps : ℚ) := by exact_mod_cast h1
  have hA : weightA steps idx = rnd ((idx : ℚ) / (steps : ℚ)) := by
    unfold weightA f64div
    rw [natToF64_eq hidx53, natToF64_eq h53]
  have hBcast : ((steps - idx : ℕ) : ℚ) = (steps : ℚ) - (idx : ℚ) :=
    Nat.cast_sub (le_of_lt hi)
  have hB : weightB steps idx = rnd (1 - (idx : ℚ) / (steps : ℚ)) := by
    unfold weightB f64div
    rw [natToF64_eq hsub53, natToF64_eq h53, hBcast, sub_div,
      div_self (ne_of_gt hspos)]
  set x : ℚ := (idx : ℚ) / (steps : ℚ) with hxdef
  rcases Nat.eq_zero_or_pos idx with h0 | hpos
  · subst h0
    rw [show x = 0 by rw [hxdef]; norm_num] at hA hB
    rw [hA, hB, rnd_zero, show (1:ℚ) - 0 = 1 by ring, rnd_one]
    unfold f64add
    rw [zero_add, rnd_one]
  · have hx0 : 0 < x := by
      rw [hxdef]
      positivity
    have hx1 : x < 1 := by
      rw [hxdef, div_lt_one hspos]
      exact_mod_cast hi
    rcases lt_trichotomy x (1/2 : ℚ) with hlt | heq | hgt
    · have hdev := rnd_add_rnd_compl hx0 hlt
      unfold f64add
      rw [hA, hB]
      have : rnd x + rnd (1 - x) = 1 + (rnd x + rnd (1 - x) - 1) := by ring
      rw [this]
      exact rnd_one_add hdev
    · rw [hA, hB, heq, show (1:ℚ) - 1/2 = 1/2 by ring, rnd_half]
      unfold f64add
      rw [show (1:ℚ)/2 + 1/2 = 1 by ring, rnd_one]
    · have hx0' : 0 < 1 - x := by linarith
      have hlt' : 1 - x < 1/2 := by linarith
      have hdev := rnd_add_rnd_compl hx0' hlt'
      rw [show (1 : ℚ) - (1 - x) = x by ring] at hdev
      unfold f64add
      rw [hA, hB]
      have : rnd x + rnd (1 - x) = 1 + (rnd (1 - x) + rnd x - 1) := by ring
      rw [this]
      refine rnd_one_add ?_
      exact hdev

/-- For `1 ≤ steps ≤ 2^53` every weight `a = idx/steps` with `idx < steps`
is strictly below 1 in the model. -/
theorem weightA_lt_one {steps idx : ℕ} (h1 : 1 ≤ steps) (h53 : steps ≤ 2 ^ 53)
    (hi : idx < steps) : weightA steps idx < 1 := by
  have hidx53 : idx ≤ 2 ^ 53 := le_trans (le_of_lt hi) h53
  have hspos : (0:ℚ) < (steps : ℚ) := by exact_mod_cast h1
  have hA : weightA steps idx = rnd ((idx : ℚ) / (steps : ℚ)) := by
    unfold weightA f64div
    rw [natToF64_eq hidx53, natToF64_eq h53]
  set x : ℚ := (idx : ℚ) / (steps : ℚ) with hxdef
  rcases Nat.eq_zero_or_pos idx with h0 | hpos
  · subst h0
    rw [hA, show x = 0 by rw [hxdef]; norm_num, rnd_zero]
    norm_num
  · have hx0 : 0 < x := by
      rw [hxdef]
      positivity
    -- x ≤ 1 - 2^-53 because idx ≤ steps - 1 and steps ≤ 2^53
    have hxb : x ≤ 1 - 2 ^ (-(53:ℤ)) := by
      rw [hxdef]
      have h1s : (idx : ℚ) ≤ (steps : ℚ) - 1 := by
        have : (idx : ℚ) + 1 ≤ (steps : ℚ) := by exact_mod_cast hi
        linarith
      have hstep : (steps : ℚ) ≤ 2 ^ (53 : ℕ) := by exact_mod_cast h53
      have h2 : (idx : ℚ) / (steps : ℚ) ≤ ((steps : ℚ) - 1) / (steps : ℚ) := by
        gcongr
      have h3 : ((steps : ℚ) - 1) / (steps : ℚ) = 1 - 1 / (steps : ℚ) := by
        field_simp
      have h4 : (2:ℚ) ^ (-(53:ℤ)) ≤ 1 / (steps : ℚ) := by
        rw [show (2:ℚ) ^ (-(53:ℤ)) = 1 / 2 ^ (53:ℕ) by norm_num]
        exact one_div_le_one_div_of_le (by positivity) hstep
      linarith
    rcases le_or_lt x (1/2 : ℚ) with hle | hgt
    · have := rnd_le_mul hx0
      rw [hA]
      have hsmall : x * (1 + 2 ^ (-(53:ℤ))) ≤ (1/2) * (1 + 2 ^ (-(53:ℤ))) := by
        refine mul_le_mul_of_nonneg_right hle (by positivity)
      have : rnd x ≤ (1/2) * (1 + 2 ^ (-(53:ℤ))) := le_trans this hsmall
      have hb : ((1:ℚ)/2) * (1 + 2 ^ (-(53:ℤ))) < 1 := by
        rw [show (2:ℚ) ^ (-(53:ℤ)) = 1 / 2 ^ (53:ℕ) by norm_num]
        norm_num
      linarith
    · -- x ∈ (1/2, 1): binade [1/2, 1), spacing 2^-53, rnd x ≤ 1 - 2^-53
      have hx1 : x < 1 := by
        have := two_zpow_pos (-(53:ℤ))
        linarith
      have he : f64exp x = -1 := by
        refine f64exp_eq ?_ ?_
        · rw [show (2:ℚ) ^ (-1 : ℤ) = 1/2 by norm_num]
          linarith
        · rw [show ((-1:ℤ) + 1) = 0 by ring]
          simpa using hx1
      rw [hA, rnd_eq x (ne_of_gt hx0), he,
        show ((52:ℤ) - (-1)) = (53:ℤ) by ring,
        show ((-1:ℤ) - 52) = (-53:ℤ) by ring]
      set t : ℚ := x * 2 ^ (53:ℤ) with htdef
      have ht_le : t ≤ 9007199254740991 := by
        rw [htdef]
        calc x * 2 ^ (53:ℤ) ≤ (1 - 2 ^ (-(53:ℤ))) * 2 ^ (53:ℤ) :=
              mul_le_mul_of_nonneg_right hxb (le_of_lt (two_zpow_pos _))
          _ = 9007199254740991 := by
              rw [sub_mul, one_mul, ← zpow_add₀ (by norm_num : (2:ℚ) ≠ 0)]
              norm_num
      have hrne : rne t ≤ 9007199254740991 := by
        have h5 : (rne t : ℚ) ≤ t + 1/2 := rne_le t
        have h6 : (rne t : ℚ) < ((9007199254740992 : ℤ) : ℚ) := by
          push_cast
          linarith
        have h7 : rne t < 9007199254740992 := by exact_mod_cast h6
        omega
      have h8 : (rne t : ℚ) ≤ (9007199254740991 : ℚ) := by exact_mod_cast hrne
      have h9 : (rne t : ℚ) * 2 ^ ((-53):ℤ) ≤ 9007199254740991 * 2 ^ ((-53):ℤ) :=
        mul_le_mul_of_nonneg_right h8 (le_of_lt (two_zpow_pos _))
      refine lt_of_le_of_lt h9 ?_
      rw [show (2:ℚ) ^ ((-53):ℤ) = 1 / 2 ^ (53:ℕ) by norm_num]
      norm_num

/-! ## Properties of `optionMap` -/

theorem optionMap_forall2 {α β : Type} (f : α → Option β) :
    ∀ (l : List α) (l' : List β), optionMap f l = some l' →
      List.Forall₂ (fun a b => f a = some b) l l'
  | [], l', h => by
      simp only [optionMap, Option.some.injEq] at h
      cases h
      exact List.Forall₂.nil
  | a :: l, l', h => by
      simp only [optionMap] at h
      cases hfa : f a with
      | none => rw [hfa] at h; cases h
      | some b =>
        rw [hfa] at h
        cases hml : optionMap f l with
        | none => rw [hml] at h; cases h
        | some bs =>
          rw [hml] at h
          simp only [Option.some_bind, Option.map_some', Option.some.injEq] at h
          cases h
          exact List.Forall₂.cons hfa (optionMap_forall2 f l bs hml)

theorem optionMap_total {α β : Type} (f : α → Option β) :
    ∀ (l : List α), (∀ a ∈ l, ∃ b, f a = some b) → ∃ l', optionMap f l = some l'
  | [], _ => ⟨[], rfl⟩
  | a :: l, h => by
      obtain ⟨b, hb⟩ := h a (by simp)
      obtain ⟨l', hl'⟩ := optionMap_total f l (fun a ha => h a (by simp [ha]))
      refine ⟨b :: l', ?_⟩
      simp only [optionMap, hb, hl', Option.some_bind, Option.map_some']

theorem optionMap_none {α β : Type} (f : α → Option β) :
    ∀ (l : List α) (a : α), a ∈ l → f a = none → optionMap f l = none
  | [], a, ha, _ => by cases ha
  | x :: l, a, ha, hfa => by
      rcases List.mem_cons.mp ha with rfl | hmem
      · simp only [optionMap, hfa, Option.none_bind]
      · cases hfx : f x with
        | none => simp only [optionMap, hfx, Option.none_bind]
        | some b =>
          simp only [optionMap, hfx, Option.some_bind,
            optionMap_none f l a hmem hfa, Option.map_none']

/-! ## Gradient-level helper lemmas -/

theorem blend_of_sum_one {c o : RGB} {α β : ℚ} (h : f64add α β = 1) :
    RGB.blend c o α β = some (RGB.add (c.mulF α) (o.mulF β)) := by
  unfold RGB.blend
  rw [if_pos h]

theorem blend_of_sum_ne_one {c o : RGB} {α β : ℚ} (h : f64add α β ≠ 1) :
    RGB.blend c o α β = none := by
  unfold RGB.blend
  rw [if_neg h]

/-- Every entry of a successfully generated gradient is the blend at its
index, and there are exactly `steps` of them. -/
theorem generate_gradient_forall2 {start end_ : RGB} {steps : ℕ} {l : List RGB}
    (h : generate_gradient start end_ steps = some l) :
    l.length = steps ∧
      ∀ i, i < steps → gradientSample start end_ steps i = some (l.getD i RGB.default) := by
  have h2 := optionMap_forall2 _ _ _ h
  have hlen := h2.length_eq
  rw [List.length_range] at hlen
  refine ⟨hlen.symm, ?_⟩
  intro i hi
  rw [List.forall₂_iff_get] at h2
  obtain ⟨hl, hget⟩ := h2
  have hi1 : i < (List.range steps).length := by
    rw [List.length_range]
    exact hi
  have hi2 : i < l.length := by omega
  have hg := hget i hi1 hi2
  rw [List.get_range] at hg
  rw [hg]
  congr 1
  exact (List.getD_eq_get l RGB.default hi2).symm

/-- For `1 ≤ steps ≤ 2^53` the gradient generation succeeds (no assertion
in `blend` can fire). -/
theorem generate_gradient_total {start end_ : RGB} {steps : ℕ} (h1 : 1 ≤ steps)
    (h53 : steps ≤ 2 ^ 53) : ∃ l, generate_gradient start end_ steps = some l := by
  refine optionMap_total _ _ ?_
  intro i hi
  rw [List.mem_range] at hi
  refine ⟨RGB.add (start.mulF (weightA steps i)) (end_.mulF (weightB steps i)), ?_⟩
  unfold gradientSample
  exact blend_of_sum_one (weights_sum h1 h53 hi)

/-- Multiplying a colour by (f64) zero gives black. -/
theorem mulF_zero (c : RGB) : c.mulF 0 = RGB.new 0 0 0 := by
  unfold RGB.mulF f64mul
  rw [mul_zero, mul_zero, mul_zero, rnd_zero]
  unfold f64toU8
  norm_num
  rfl

/-- Each channel survives multiplication by (f64) one. -/
theorem channel_mul_one {n : ℕ} (hn : n ≤ 255) :
    f64toU8 (f64mul (natToF64 n) 1) = n := by
  unfold f64mul
  rw [natToF64_eq (by omega : n ≤ 2 ^ 53), mul_one, rnd_natCast (by omega : n ≤ 2 ^ 53)]
  unfold f64toU8
  rw [Int.floor_natCast]
  rw [Int.toNat_natCast]
  omega

/-- Multiplying a well-formed colour by (f64) one returns it unchanged. -/
theorem mulF_one {c : RGB} (hwf : c.wf) : c.mulF 1 = c := by
  obtain ⟨hr, hg, hb⟩ := hwf
  unfold RGB.mulF
  rw [channel_mul_one hr, channel_mul_one hg, channel_mul_one hb]

/-- At index 0 the gradient sample is exactly the `end` colour — for `steps ≥ 1`
with no upper bound on `steps`, because `steps as f64 / steps as f64` is
exactly 1 even when the conversion of `steps` itself rounds. -/
theorem gradientSample_zero {start end_ : RGB} {steps : ℕ} (h1 : 1 ≤ steps)
    (hwf : end_.wf) : gradientSample start end_ steps 0 = some end_ := by
  obtain ⟨er, eg, eb⟩ := end_
  obtain ⟨hr, hg, hb⟩ := hwf
  dsimp only at hr hg hb
  unfold gradientSample
  rw [weightA_zero, weightB_zero h1]
  have hsum : f64add 0 1 = 1 := by
    unfold f64add
    rw [zero_add, rnd_one]
  rw [blend_of_sum_one hsum, mulF_zero, mulF_one ⟨hr, hg, hb⟩]
  unfold RGB.add RGB.new
  simp only [Nat.zero_add]
  rw [Nat.mod_eq_of_lt (by omega), Nat.mod_eq_of_lt (by omega),
    Nat.mod_eq_of_lt (by omega)]

/-! ## Evaluating `rnd` on concrete values -/

theorem rnd_eval_lo {q : ℚ} {e f : ℤ} (hq : 0 < q)
    (hlo : (2:ℚ) ^ e ≤ q) (hhi : q < 2 ^ (e + 1))
    (hfl : ⌊q * 2 ^ ((52:ℤ) - e)⌋ = f)
    (hfr : q * 2 ^ ((52:ℤ) - e) - (f : ℚ) < 1/2) :
    rnd q = (f : ℚ) * 2 ^ (e - 52) := by
  have he := f64exp_eq hlo hhi
  rw [rnd_eq q (ne_of_gt hq), he, rne_eq_floor (by rw [hfl]; exact hfr), hfl]

theorem rnd_eval_hi {q : ℚ} {e f : ℤ} (hq : 0 < q)
    (hlo : (2:ℚ) ^ e ≤ q) (hhi : q < 2 ^ (e + 1))
    (hfl : ⌊q * 2 ^ ((52:ℤ) - e)⌋ = f)
    (hfr : 1/2 < q * 2 ^ ((52:ℤ) - e) - (f : ℚ)) :
    rnd q = ((f + 1 : ℤ) : ℚ) * 2 ^ (e - 52) := by
  have he := f64exp_eq hlo hhi
  rw [rnd_eq q (ne_of_gt hq), he, rne_eq_ceil (by rw [hfl]; exact hfr), hfl]

theorem rnd_eval_tie_even {q : ℚ} {e f : ℤ} (hq : 0 < q)
    (hlo : (2:ℚ) ^ e ≤ q) (hhi : q < 2 ^ (e + 1))
    (hfl : ⌊q * 2 ^ ((52:ℤ) - e)⌋ = f)
    (hfr : q * 2 ^ ((52:ℤ) - e) - (f : ℚ) = 1/2) (hev : f % 2 = 0) :
    rnd q = (f : ℚ) * 2 ^ (e - 52) := by
  have he := f64exp_eq hlo hhi
  rw [rnd_eq q (ne_of_gt hq), he, rne_eq_tie (by rw [hfl]; exact hfr), hfl,
    if_pos hev]

/-- Converting `2^53 + 1` to f64 rounds (tie to even) down to `2^53`. -/
theorem natToF64_pow53_succ : natToF64 (2 ^ 53 + 1) = 2 ^ 53 := by
  unfold natToF64
  have hcast : (((2:ℕ) ^ 53 + 1 : ℕ) : ℚ) = 2 ^ 53 + 1 := by push_cast; norm_num
  rw [hcast]
  have h := rnd_eval_tie_even (q := (2:ℚ) ^ 53 + 1) (e := 53) (f := 2 ^ 52)
    (by positivity) (by norm_num) (by norm_num) (by norm_num) (by norm_num)
    (by norm_num)
  rw [h]
  norm_num

/-- Converting `2^53 + 2` to f64 is exact. -/
theorem natToF64_pow53_add2 : natToF64 (2 ^ 53 + 2) = 2 ^ 53 + 2 := by
  have := natToF64_eq (n := 2 ^ 53 + 2)
  unfold natToF64
  have hcast : (((2:ℕ) ^ 53 + 2 : ℕ) : ℚ) = 2 ^ 53 + 2 := by push_cast; norm_num
  rw [hcast]
  have he : f64exp ((2:ℚ) ^ 53 + 2) = 53 := f64exp_eq (by norm_num) (by norm_num)
  have h := rnd_exact (q := (2:ℚ) ^ 53 + 2) (m := 2 ^ 52 + 1) (by positivity) ?_
  · rw [h]
  · rw [he]
    norm_num

/-- Converting `2^53` to f64 is exact. -/
theorem natToF64_pow53 : natToF64 (2 ^ 53) = 2 ^ 53 := by
  have h := natToF64_eq (n := 2 ^ 53) (le_refl _)
  rw [h]
  push_cast
  norm_num

/-- At `steps = 2^53 + 2`, `idx = 2^53 + 1` the two f64 weights sum to
`1 - 2^-53`, not `1`: the conversion of `idx` to `f64` rounds and the blend
assertion fires. -/
theorem weights_sum_fails :
    f64add (weightA (2 ^ 53 + 2) (2 ^ 53 + 1)) (weightB (2 ^ 53 + 2) (2 ^ 53 + 1)) =
      1 - 2 ^ (-(53:ℤ)) := by
  have hA : weightA (2 ^ 53 + 2) (2 ^ 53 + 1) = 1 - 2 ^ (-(52:ℤ)) := by
    unfold weightA f64div
    rw [natToF64_pow53_succ, natToF64_pow53_add2]
    have h := rnd_eval_lo (q := (2:ℚ) ^ 53 / (2 ^ 53 + 2)) (e := -1) (f := 2 ^ 53 - 2)
      (by positivity) (by norm_num) (by norm_num) (by norm_num) (by norm_num)
    rw [h]
    push_cast
    rw [show (2:ℚ) ^ (-53:ℤ) = 1 / 2 ^ (53:ℕ) by norm_num,
      show (2:ℚ) ^ (-(52):ℤ) = 1 / 2 ^ (52:ℕ) by norm_num]
    norm_num
  have hB : weightB (2 ^ 53 + 2) (2 ^ 53 + 1) = 2 ^ (-(53:ℤ)) - 2 ^ (-(105:ℤ)) := by
    unfold weightB f64div
    rw [show (2 ^ 53 + 2) - (2 ^ 53 + 1) = 1 by omega, natToF64_pow53_add2]
    have h1 : natToF64 1 = 1 := by
      have := natToF64_eq (n := 1) (by norm_num)
      rw [this]
      norm_num
    rw [h1]
    have h := rnd_eval_lo (q := (1:ℚ) / (2 ^ 53 + 2)) (e := -54) (f := 2 ^ 53 - 2)
      (by positivity) (by norm_num) (by norm_num) (by norm_num) (by norm_num)
    rw [h]
    push_cast
    rw [show (2:ℚ) ^ (-106:ℤ) = 1 / 2 ^ (106:ℕ) by norm_num,
      show (2:ℚ) ^ (-(53):ℤ) = 1 / 2 ^ (53:ℕ) by norm_num,
      show (2:ℚ) ^ (-(105):ℤ) = 1 / 2 ^ (105:ℕ) by norm_num]
    norm_num
  rw [hA, hB]
  unfold f64add
  have hsum : (1 - 2 ^ (-(52:ℤ))) + ((2:ℚ) ^ (-(53:ℤ)) - 2 ^ (-(105:ℤ)))
      = 1 - 2 ^ (-(53:ℤ)) - 2 ^ (-(105:ℤ)) := by
    rw [show (2:ℚ) ^ (-(52):ℤ) = 1 / 2 ^ (52:ℕ) by norm_num,
      show (2:ℚ) ^ (-(53):ℤ) = 1 / 2 ^ (53:ℕ) by norm_num,
      show (2:ℚ) ^ (-(105):ℤ) = 1 / 2 ^ (105:ℕ) by norm_num]
    ring
  rw [hsum]
  have h := rnd_eval_hi (q := 1 - (2:ℚ) ^ (-(53:ℤ)) - 2 ^ (-(105:ℤ))) (e := -1)
    (f := 2 ^ 53 - 2) ?_ ?_ ?_ ?_ ?_
  · rw [h]
    push_cast
    rw [show (2:ℚ) ^ (-53:ℤ) = 1 / 2 ^ (53:ℕ) by norm_num]
    norm_num
  · rw [show (2:ℚ) ^ (-(53):ℤ) = 1 / 2 ^ (53:ℕ) by norm_num,
      show (2:ℚ) ^ (-(105):ℤ) = 1 / 2 ^ (105:ℕ) by norm_num]
    norm_num
  · rw [show (2:ℚ) ^ (-(53):ℤ) = 1 / 2 ^ (53:ℕ) by norm_num,
      show (2:ℚ) ^ (-(105):ℤ) = 1 / 2 ^ (105:ℕ) by norm_num]
    norm_num
  · rw [show (2:ℚ) ^ (-(53):ℤ) = 1 / 2 ^ (53:ℕ) by norm_num,
      show (2:ℚ) ^ (-(105):ℤ) = 1 / 2 ^ (105:ℕ) by norm_num]
    norm_num
  · rw [show ((52:ℤ) - (-1)) = (53:ℤ) by ring,
      show (2:ℚ) ^ (53:ℤ) = 2 ^ (53:ℕ) by norm_num,
      show (2:ℚ) ^ (-(53):ℤ) = 1 / 2 ^ (53:ℕ) by norm_num,
      show (2:ℚ) ^ (-(105):ℤ) = 1 / 2 ^ (105:ℕ) by norm_num]
    push_cast
    norm_num
  · rw [show ((52:ℤ) - (-1)) = (53:ℤ) by ring,
      show (2:ℚ) ^ (53:ℤ) = 2 ^ (53:ℕ) by norm_num,
      show (2:ℚ) ^ (-(53):ℤ) = 1 / 2 ^ (53:ℕ) by norm_num,
      show (2:ℚ) ^ (-(105):ℤ) = 1 / 2 ^ (105:ℕ) by norm_num]
    push_cast
    norm_num

theorem rnd_le_mul' {q : ℚ} (hq : 0 ≤ q) : rnd q ≤ q * (1 + 2 ^ (-(53 : ℤ))) := by
  rcases eq_or_lt_of_le hq with h | h
  · rw [← h, rnd_zero]
    norm_num
  · exact rnd_le_mul h

/-- An integer below a positive value below `2^53` is also below its rounding:
integers up to `2^53` sit on every grid in play. -/
theorem int_le_rnd {k : ℤ} {x : ℚ} (hx : 0 ≤ x) (hx53 : x < (2:ℚ) ^ (53:ℤ))
    (h : (k : ℚ) ≤ x) : (k : ℚ) ≤ rnd x := by
  rcases eq_or_lt_of_le hx with h0 | h0
  · rw [← h0, rnd_zero]
    rwa [← h0] at h
  rcases le_or_lt (k : ℚ) 0 with hk0 | hk0
  · exact le_trans hk0 (le_of_lt (rnd_pos h0))
  have he52 : f64exp x ≤ 52 := by
    refine f64exp_le_of_lt h0 ?_
    rwa [show ((52:ℤ) + 1) = (53:ℤ) by ring]
  set e := f64exp x with hedef
  rw [rnd_eq x (ne_of_gt h0), ← hedef]
  set t := x * 2 ^ ((52:ℤ) - e) with htdef
  set K : ℤ := k * 2 ^ ((52 - e).toNat) with hKdef
  have hKc : (K : ℚ) = (k : ℚ) * 2 ^ ((52:ℤ) - e) := by
    rw [hKdef]
    push_cast
    rw [← zpow_natCast (2:ℚ), Int.toNat_of_nonneg (by omega)]
  have hKt : (K : ℚ) ≤ t := by
    rw [hKc, htdef]
    exact mul_le_mul_of_nonneg_right h (le_of_lt (two_zpow_pos _))
  have hrne : K ≤ rne t := by
    have h1 : (rne t : ℚ) ≥ t - 1/2 := rne_ge t
    have h2 : ((K - 1 : ℤ) : ℚ) < (rne t : ℚ) := by
      push_cast
      linarith
    have h3 : K - 1 < rne t := by exact_mod_cast h2
    omega
  calc (k : ℚ) = (K : ℚ) * 2 ^ (e - 52) := by
        rw [hKc, mul_assoc, ← zpow_add₀ (by norm_num : (2:ℚ) ≠ 0)]
        simp
    _ ≤ (rne t : ℚ) * 2 ^ (e - 52) := by
        refine mul_le_mul_of_nonneg_right ?_ (le_of_lt (two_zpow_pos _))
        exact_mod_cast hrne

/-- A rounded value strictly below 1 after its relative error is still
truncated to 0 by the `u8` cast. -/
theorem f64toU8_rnd_lt_one {x : ℚ} (h0 : 0 ≤ x) (h1 : x * (1 + 2 ^ (-(53:ℤ))) < 1) :
    f64toU8 (rnd x) = 0 := by
  have hnn := rnd_nonneg h0
  have hub : rnd x < 1 := lt_of_le_of_lt (rnd_le_mul' h0) h1
  unfold f64toU8
  have : ⌊rnd x⌋ = 0 := by
    rw [Int.floor_eq_zero_iff]
    exact ⟨hnn, hub⟩
  rw [this]
  rfl

theorem two_zpow_lt_iff {m n : ℤ} : (2 : ℚ) ^ m < 2 ^ n ↔ m < n :=
  zpow_lt_zpow_iff_right₀ (by norm_num)

/-- The value `2^-53` is exactly representable. -/
theorem rnd_pow53_inv : rnd ((2:ℚ) ^ (-(53:ℤ))) = 2 ^ (-(53:ℤ)) := by
  have he : f64exp ((2:ℚ) ^ (-(53:ℤ))) = -53 := by
    refine f64exp_eq (le_refl _) (two_zpow_lt_iff.mpr (by omega))
  refine rnd_exact (two_zpow_pos _) (m := 2 ^ 52) ?_
  rw [he]
  rw [show ((2 ^ 52 : ℤ) : ℚ) = 2 ^ (52:ℤ) by norm_num,
    ← zpow_add₀ (by norm_num : (2:ℚ) ≠ 0)]
  norm_num

theorem natToF64_one : natToF64 1 = 1 := by
  have := natToF64_eq (n := 1) (by norm_num)
  rw [this]
  norm_num

/-- The value `1 + 2^-53` lies exactly halfway between `1` and the next float
`1 + 2^-52`; the tie goes to the even mantissa, i.e. down to `1`. -/
theorem rnd_one_add_tie : rnd (1 + (2:ℚ) ^ (-(53:ℤ))) = 1 := by
  have h := rnd_eval_tie_even (q := 1 + (2:ℚ) ^ (-(53:ℤ))) (e := 0) (f := 2 ^ 52)
    (by positivity) ?_ ?_ ?_ ?_ ?_
  · rw [h]
    push_cast
    rw [show (2:ℚ) ^ (-52:ℤ) = 1 / 2 ^ (52:ℕ) by norm_num]
    norm_num
  · rw [show (2:ℚ) ^ (-(53):ℤ) = 1 / 2 ^ (53:ℕ) by norm_num]
    norm_num
  · rw [show (2:ℚ) ^ (-(53):ℤ) = 1 / 2 ^ (53:ℕ) by norm_num]
    norm_num
  · rw [show (2:ℚ) ^ (-(53):ℤ) = 1 / 2 ^ (53:ℕ) by norm_num]
    norm_num
  · rw [show (2:ℚ) ^ (-(53):ℤ) = 1 / 2 ^ (53:ℕ) by norm_num]
    norm_num
  · norm_num

/-- At `steps = 2^53 + 1`, `idx = 2^53` the weight on `start` is exactly `1.0`:
`idx as f64` rounds up to `2^53` while `steps as f64` rounds down to `2^53`,
and `2^53 / 2^53 = 1`. -/
theorem weightA_full : weightA (2 ^ 53 + 1) (2 ^ 53) = 1 := by
  unfold weightA f64div
  rw [natToF64_pow53, natToF64_pow53_succ,
    div_self (by norm_num : ((2:ℚ) ^ 53) ≠ 0), rnd_one]

theorem weightB_tiny : weightB (2 ^ 53 + 1) (2 ^ 53) = 2 ^ (-(53:ℤ)) := by
  unfold weightB f64div
  rw [show (2 ^ 53 + 1) - 2 ^ 53 = 1 by omega, natToF64_one, natToF64_pow53_succ,
    show (1:ℚ) / 2 ^ 53 = 2 ^ (-(53:ℤ)) by rw [zpow_neg]; norm_num]
  exact rnd_pow53_inv

/-- Multiplying a well-formed colour by `2^-53` truncates every channel to 0. -/
theorem mulF_tiny {c : RGB} (hwf : c.wf) : c.mulF (2 ^ (-(53:ℤ))) = RGB.new 0 0 0 := by
  obtain ⟨cr, cg, cb⟩ := c
  obtain ⟨hr, hg, hb⟩ := hwf
  dsimp only at hr hg hb
  unfold RGB.mulF f64mul RGB.new
  have key : ∀ n : ℕ, n ≤ 255 → f64toU8 (rnd (natToF64 n * 2 ^ (-(53:ℤ)))) = 0 := by
    intro n hn
    rw [natToF64_eq (by omega : n ≤ 2 ^ 53)]
    refine f64toU8_rnd_lt_one (by positivity) ?_
    have hle : (n:ℚ) ≤ 255 := by exact_mod_cast hn
    have hp : (0:ℚ) < 2 ^ (-(53:ℤ)) := two_zpow_pos _
    calc (n:ℚ) * 2 ^ (-(53:ℤ)) * (1 + 2 ^ (-(53:ℤ)))
        ≤ 255 * 2 ^ (-(53:ℤ)) * (1 + 2 ^ (-(53:ℤ))) := by
          refine mul_le_mul_of_nonneg_right
            (mul_le_mul_of_nonneg_right hle (le_of_lt hp)) (by positivity)
      _ < 1 := by
          rw [show (2:ℚ) ^ (-(53):ℤ) = 1 / 2 ^ (53:ℕ) by norm_num]
          norm_num
  rw [key cr hr, key cg hg, key cb hb]

/-- At `steps = 2^53 + 1`, `idx = 2^53` the blend assertion still passes
(`1 + 2^-53` rounds back to `1` by the tie-to-even rule) and the sample is
exactly `start`: this gradient places full weight on `start`. -/
theorem gradientSample_pow53 {start end_ : RGB} (hs : start.wf) (hwf : end_.wf) :
    gradientSample start end_ (2 ^ 53 + 1) (2 ^ 53) = some start := by
  unfold gradientSample
  rw [weightA_full, weightB_tiny]
  have hsum : f64add 1 (2 ^ (-(53:ℤ))) = 1 := by
    unfold f64add
    exact rnd_one_add_tie
  rw [blend_of_sum_one hsum, mulF_one hs, mulF_tiny hwf]
  obtain ⟨sr, sg, sb⟩ := start
  obtain ⟨hr2, hg2, hb2⟩ := hs
  dsimp only at hr2 hg2 hb2
  unfold RGB.add RGB.new
  simp only [Nat.add_zero]
  rw [Nat.mod_eq_of_lt (by omega), Nat.mod_eq_of_lt (by omega),
    Nat.mod_eq_of_lt (by omega)]

/-! ## Hex digit helper lemmas -/

theorem hexDigit_cases {c : ℕ} (h : isHexDigitByte c = true) :
    (48 ≤ c ∧ c ≤ 57) ∨ (65 ≤ c ∧ c ≤ 70) ∨ (97 ≤ c ∧ c ≤ 102) := by
  unfold isHexDigitByte at h
  simp only [Bool.or_eq_true, Bool.and_eq_true, decide_eq_true_eq] at h
  tauto

theorem hexVal_lt {c : ℕ} (h : isHexDigitByte c = true) : hexVal c < 16 := by
  rcases hexDigit_cases h with ⟨h1, h2⟩ | ⟨h1, h2⟩ | ⟨h1, h2⟩ <;>
    · unfold hexVal
      split_ifs <;> omega

theorem hexDigitChar_round {c : ℕ} (h : isHexDigitByte c = true) :
    hexDigitChar (hexVal c) = toLowerByte c := by
  rcases hexDigit_cases h with ⟨h1, h2⟩ | ⟨h1, h2⟩ | ⟨h1, h2⟩ <;>
    · unfold hexVal hexDigitChar toLowerByte
      split_ifs <;> omega

theorem toHex2_pair {h l : ℕ} (hh : isHexDigitByte h = true)
    (hl : isHexDigitByte l = true) :
    toHex2 (hexVal h * 16 + hexVal l) = [toLowerByte h, toLowerByte l] := by
  unfold toHex2
  have h16 := hexVal_lt hl
  have hdiv : (hexVal h * 16 + hexVal l) / 16 = hexVal h := by omega
  have hmod : (hexVal h * 16 + hexVal l) % 16 = hexVal l := by omega
  rw [hdiv, hmod, hexDigitChar_round hh, hexDigitChar_round hl]

/-! ## Blending a colour with itself -/

/-- A rational that is exactly a binary64 value. -/
def isF64 (q : ℚ) : Prop := rnd q = q

/-- A channel `v ≤ 255` blended with itself under complementary weights
`a` and `1 - a` loses at most one unit to truncation and never exceeds `v`. -/
theorem channel_blend_self {v : ℕ} (hv : v ≤ 255) {a : ℚ} (h0 : 0 ≤ a) (h1 : a ≤ 1) :
    (f64toU8 (f64mul (natToF64 v) a) + f64toU8 (f64mul (natToF64 v) (1 - a))) % 256 ≤ v ∧
    v ≤ (f64toU8 (f64mul (natToF64 v) a) + f64toU8 (f64mul (natToF64 v) (1 - a))) % 256 + 1 := by
  have hv53 : v ≤ 2 ^ 53 := by omega
  unfold f64mul
  rw [natToF64_eq hv53]
  set p : ℚ := (v : ℚ) * a with hpdef
  set q : ℚ := (v : ℚ) * (1 - a) with hqdef
  have hvq : (0:ℚ) ≤ (v:ℚ) := by positivity
  have hv255 : (v:ℚ) ≤ 255 := by exact_mod_cast hv
  have hp0 : 0 ≤ p := by rw [hpdef]; positivity
  have hq0 : 0 ≤ q := by
    rw [hqdef]
    have : (0:ℚ) ≤ 1 - a := by linarith
    positivity
  have hpq : p + q = (v : ℚ) := by rw [hpdef, hqdef]; ring
  have hp255 : p ≤ 255 := by nlinarith
  have hq255 : q ≤ 255 := by nlinarith
  have hp53 : p < (2:ℚ) ^ (53:ℤ) := by
    rw [show (2:ℚ) ^ (53:ℤ) = 2 ^ (53:ℕ) by norm_num]
    nlinarith
  have hq53 : q < (2:ℚ) ^ (53:ℤ) := by
    rw [show (2:ℚ) ^ (53:ℤ) = 2 ^ (53:ℕ) by norm_num]
    nlinarith
  -- floors of the exact products
  have hfp0 : 0 ≤ ⌊p⌋ := Int.floor_nonneg.mpr hp0
  have hfq0 : 0 ≤ ⌊q⌋ := Int.floor_nonneg.mpr hq0
  -- floors of the rounded products dominate floors of the exact ones
  have hlow_p : ⌊p⌋ ≤ ⌊rnd p⌋ := Int.le_floor.mpr (int_le_rnd hp0 hp53 (Int.floor_le p))
  have hlow_q : ⌊q⌋ ≤ ⌊rnd q⌋ := Int.le_floor.mpr (int_le_rnd hq0 hq53 (Int.floor_le q))
  -- upper bounds on the rounded products
  have hub_p : rnd p ≤ p * (1 + 2 ^ (-(53:ℤ))) := rnd_le_mul' hp0
  have hub_q : rnd q ≤ q * (1 + 2 ^ (-(53:ℤ))) := rnd_le_mul' hq0
  have heps : (0:ℚ) < 2 ^ (-(53:ℤ)) := two_zpow_pos _
  have heps' : (2:ℚ) ^ (-(53:ℤ)) = 1 / 2 ^ (53:ℕ) := by norm_num
  -- the sum of the rounded floors is at most v
  have hsum_ub : ⌊rnd p⌋ + ⌊rnd q⌋ ≤ (v : ℤ) := by
    have hcast : ((⌊rnd p⌋ + ⌊rnd q⌋ : ℤ) : ℚ) < ((v : ℤ) : ℚ) + 1 := by
      push_cast
      have e1 : (⌊rnd p⌋ : ℚ) ≤ rnd p := Int.floor_le _
      have e2 : (⌊rnd q⌋ : ℚ) ≤ rnd q := Int.floor_le _
      have e3 : rnd p + rnd q ≤ (p + q) * (1 + 2 ^ (-(53:ℤ))) := by nlinarith
      rw [hpq] at e3
      rw [heps'] at e3
      nlinarith
    have := lt_of_lt_of_le hcast (by push_cast; norm_num : ((v:ℤ):ℚ) + 1 ≤ ((v + 1 : ℤ) : ℚ))
    have h2 : (⌊rnd p⌋ + ⌊rnd q⌋ : ℤ) < (v : ℤ) + 1 := by exact_mod_cast this
    omega
  -- the sum of the exact floors is at least v - 1
  have hsum_lb : (v : ℤ) - 1 ≤ ⌊p⌋ + ⌊q⌋ := by
    have e1 : p - 1 < (⌊p⌋ : ℚ) := by
      have := Int.lt_floor_add_one p
      linarith
    have e2 : q - 1 < (⌊q⌋ : ℚ) := by
      have := Int.lt_floor_add_one q
      linarith
    have e3 : ((v:ℤ):ℚ) - 2 < ((⌊p⌋ + ⌊q⌋ : ℤ) : ℚ) := by
      push_cast
      push_cast at e1 e2
      nlinarith [hpq]
    have h2 : (v : ℤ) - 2 < ⌊p⌋ + ⌊q⌋ := by exact_mod_cast e3
    omega
  -- rounded floors stay below 256
  have hcap_p : ⌊rnd p⌋ ≤ 255 := by
    have : rnd p < 256 := by
      rw [heps'] at hub_p
      nlinarith
    have := Int.floor_lt.mpr (by push_cast; linarith : rnd p < ((256:ℤ):ℚ))
    omega
  have hcap_q : ⌊rnd q⌋ ≤ 255 := by
    have : rnd q < 256 := by
      rw [heps'] at hub_q
      nlinarith
    have := Int.floor_lt.mpr (by push_cast; linarith : rnd q < ((256:ℤ):ℚ))
    omega
  -- remove the min and the mod, then close with omega
  unfold f64toU8
  rw [min_eq_right (by omega : ⌊rnd p⌋.toNat ≤ 255),
    min_eq_right (by omega : ⌊rnd q⌋.toNat ≤ 255)]
  have hmod : (⌊rnd p⌋.toNat + ⌊rnd q⌋.toNat) % 256 = ⌊rnd p⌋.toNat + ⌊rnd q⌋.toNat := by
    refine Nat.mod_eq_of_lt ?_
    omega
  rw [hmod]
  omega

/-! ## The claims -/

/-- C1 (counterexample): at `steps = 2^53 + 1`, `idx = 2^53` the weight on
`start` is exactly `1.0` (not strictly less than 1), and the sample equals
`start` exactly — the gradient does place full weight on `start`. -/
theorem claim1_counterexample :
    weightA (2 ^ 53 + 1) (2 ^ 53) = 1 ∧
    gradientSample ⟨10, 20, 30⟩ ⟨200, 100, 50⟩ (2 ^ 53 + 1) (2 ^ 53) =
      some ⟨10, 20, 30⟩ :=
  ⟨weightA_full,
    gradientSample_pow53 ⟨by norm_num, by norm_num, by norm_num⟩
      ⟨by norm_num, by norm_num, by norm_num⟩⟩

/-- C1 (amended): for every `steps ≥ 1` the sample at index 0 is exactly the
`end` colour, and — provided `steps ≤ 2^53`, so that the `usize → f64`
conversions are exact — every weight `a = idx/steps` with `idx < steps` is
strictly less than 1. -/
theorem claim1_amended (start end_ : RGB) (steps : ℕ) (h1 : 1 ≤ steps)
    (hwf : end_.wf) :
    gradientSample start end_ steps 0 = some end_ ∧
    (steps ≤ 2 ^ 53 → ∀ idx, idx < steps → weightA steps idx < 1) :=
  ⟨gradientSample_zero h1 hwf, fun h53 _ hi => weightA_lt_one h1 h53 hi⟩

/-- C1 (witness): the amended claim at `steps = 2`, concrete colours. -/
theorem claim1_witness :
    gradientSample ⟨1, 2, 3⟩ ⟨4, 5, 6⟩ 2 0 = some ⟨4, 5, 6⟩ ∧ weightA 2 1 < 1 :=
  ⟨(claim1_amended ⟨1, 2, 3⟩ ⟨4, 5, 6⟩ 2 (by norm_num)
      ⟨by norm_num, by norm_num, by norm_num⟩).1,
    (claim1_amended ⟨1, 2, 3⟩ ⟨4, 5, 6⟩ 2 (by norm_num)
      ⟨by norm_num, by norm_num, by norm_num⟩).2 (by norm_num) 1 (by norm_num)⟩

/-- C2 (counterexample): at `steps = 2^53 + 2` the weights at index
`2^53 + 1` fail the blend assertion, the loop panics, and `generate_gradient`
returns no sequence at all — so the length invariant fails for this `steps`. -/
theorem claim2_counterexample :
    generate_gradient ⟨0, 0, 0⟩ ⟨255, 255, 255⟩ (2 ^ 53 + 2) = none := by
  unfold generate_gradient
  refine optionMap_none _ _ (2 ^ 53 + 1) ?_ ?_
  · rw [List.mem_range]
    omega
  · unfold gradientSample
    refine blend_of_sum_ne_one ?_
    rw [weights_sum_fails, show (2:ℚ) ^ (-(53):ℤ) = 1 / 2 ^ (53:ℕ) by norm_num]
    norm_num

/-- C2 (amended): whenever `generate_gradient` returns a sequence its length
is exactly `steps`, and for every `steps ≤ 2^53` it does return one. -/
theorem claim2_amended (start end_ : RGB) (steps : ℕ) :
    (∀ l, generate_gradient start end_ steps = some l → l.length = steps) ∧
    (steps ≤ 2 ^ 53 →
      ∃ l, generate_gradient start end_ steps = some l ∧ l.length = steps) := by
  constructor
  · intro l hl
    exact (generate_gradient_forall2 hl).1
  · intro h53
    rcases Nat.eq_zero_or_pos steps with h0 | h0
    · subst h0
      exact ⟨[], rfl, rfl⟩
    · obtain ⟨l, hl⟩ := generate_gradient_total h0 h53
      exact ⟨l, hl, (generate_gradient_forall2 hl).1⟩

/-- C2 (witness): the amended claim at `steps = 1`. -/
theorem claim2_witness :
    ∃ l, generate_gradient ⟨0, 0, 0⟩ ⟨9, 9, 9⟩ 1 = some l ∧ l.length = 1 :=
  (claim2_amended ⟨0, 0, 0⟩ ⟨9, 9, 9⟩ 1).2 (by norm_num)

/-- C3: the intended semantics of `blend`'s assertion (the source's
`asser_eq!` is an undefined macro — a typo for `assert_eq!` that prevents the
crate from compiling): with weights whose f64 sum is not 1 the call panics
and returns nothing; with complementary weights it returns the per-channel
weighted sum. -/
theorem claim3_blend_assertion :
    RGB.blend ⟨0, 0, 0⟩ ⟨0, 0, 0⟩ (1/2) (3/5) = none ∧
    RGB.blend ⟨100, 0, 0⟩ ⟨200, 0, 0⟩ (1/2) (1/2) =
      some (RGB.add (RGB.mulF ⟨100, 0, 0⟩ (1/2)) (RGB.mulF ⟨200, 0, 0⟩ (1/2))) := by
  constructor
  · refine blend_of_sum_ne_one ?_
    unfold f64add
    rw [show (1:ℚ)/2 + 3/5 = 11/10 by norm_num]
    have h := rnd_eval_hi (q := (11:ℚ)/10) (e := 0) (f := 4953959590107545)
      (by norm_num) (by norm_num) (by norm_num) (by norm_num) (by norm_num)
    rw [h]
    push_cast
    rw [show (2:ℚ) ^ (-52:ℤ) = 1 / 2 ^ (52:ℕ) by norm_num]
    norm_num
  · refine blend_of_sum_one ?_
    unfold f64add
    rw [show (1:ℚ)/2 + 1/2 = 1 by norm_num, rnd_one]

/-- C4 (counterexample): at `steps = 2^53 + 2`, `idx = 2^53 + 1` the f64 sum
of the weights is `1 - 2^-53 ≠ 1`: the conversion `idx as f64` rounds, and
the blend precondition is violated by the gradient algorithm itself. -/
theorem claim4_counterexample :
    f64add (weightA (2 ^ 53 + 2) (2 ^ 53 + 1)) (weightB (2 ^ 53 + 2) (2 ^ 53 + 1)) ≠ 1 := by
  rw [weights_sum_fails, show (2:ℚ) ^ (-(53):ℤ) = 1 / 2 ^ (53:ℕ) by norm_num]
  norm_num

/-- C4 (amended): for every `steps` with `1 ≤ steps ≤ 2^53` and every
`idx < steps`, the f64 sum of the weights `idx/steps` and `(steps-idx)/steps`
is exactly `1.0`, so the blend assertion never fires in that range. -/
theorem claim4_amended (steps idx : ℕ) (h1 : 1 ≤ steps) (h53 : steps ≤ 2 ^ 53)
    (hi : idx < steps) :
    f64add (weightA steps idx) (weightB steps idx) = 1 :=
  weights_sum h1 h53 hi

/-- C4 (witness): the amended claim at `steps = 3`, `idx = 1`. -/
theorem claim4_witness : f64add (weightA 3 1) (weightB 3 1) = 1 :=
  claim4_amended 3 1 (by norm_num) (by norm_num) (by norm_num)

/-- C5: `Add` computes each channel independently as an 8-bit sum wrapping
modulo 256; whenever a per-channel sum of two `u8` values exceeds 255 the
result is `sum - 256`, strictly below 255 — wrapped, not saturated. -/
theorem claim5_add_wraps (c o : RGB) :
    RGB.add c o = ⟨(c.r + o.r) % 256, (c.g + o.g) % 256, (c.b + o.b) % 256⟩ ∧
    (c.r ≤ 255 → o.r ≤ 255 → 255 < c.r + o.r →
      (RGB.add c o).r = c.r + o.r - 256 ∧ (RGB.add c o).r < 255) ∧
    (c.g ≤ 255 → o.g ≤ 255 → 255 < c.g + o.g →
      (RGB.add c o).g = c.g + o.g - 256 ∧ (RGB.add c o).g < 255) ∧
    (c.b ≤ 255 → o.b ≤ 255 → 255 < c.b + o.b →
      (RGB.add c o).b = c.b + o.b - 256 ∧ (RGB.add c o).b < 255) := by
  refine ⟨rfl, ?_, ?_, ?_⟩ <;>
    · intro h1 h2 h3
      unfold RGB.add
      dsimp only
      omega

/-- C5 (witness): `200 + 100` wraps to `44` in the red channel. -/
theorem claim5_witness :
    (RGB.add ⟨200, 1, 2⟩ ⟨100, 3, 4⟩).r = 44 ∧ (RGB.add ⟨200, 1, 2⟩ ⟨100, 3, 4⟩).r < 255 := by
  have h := (claim5_add_wraps ⟨200, 1, 2⟩ ⟨100, 3, 4⟩).2.1 (by norm_num) (by norm_num)
    (by norm_num)
  exact ⟨h.1.trans (by norm_num), h.2⟩

/-- C6: parsing `#` followed by six hex digits (either case) and then
displaying the colour yields the lowercase-normalised input string. -/
theorem claim6_hex_roundtrip (c1 c2 c3 c4 c5 c6 : ℕ)
    (h1 : isHexDigitByte c1 = true) (h2 : isHexDigitByte c2 = true)
    (h3 : isHexDigitByte c3 = true) (h4 : isHexDigitByte c4 = true)
    (h5 : isHexDigitByte c5 = true) (h6 : isHexDigitByte c6 = true) :
    ∃ col, RGB.from_hex_string [35, c1, c2, c3, c4, c5, c6] = some col ∧
      col.display = [35, toLowerByte c1, toLowerByte c2, toLowerByte c3,
        toLowerByte c4, toLowerByte c5, toLowerByte c6] := by
  have hm : hexRegexMatches [35, c1, c2, c3, c4, c5, c6] = true := by
    unfold hexRegexMatches
    simp [h1, h2, h3, h4, h5, h6]
  refine ⟨RGB.new (hexVal c1 * 16 + hexVal c2) (hexVal c3 * 16 + hexVal c4)
    (hexVal c5 * 16 + hexVal c6), ?_, ?_⟩
  · unfold RGB.from_hex_string
    rw [if_pos hm]
  · unfold RGB.display RGB.new
    dsimp only
    rw [toHex2_pair h1 h2, toHex2_pair h3 h4, toHex2_pair h5 h6]
    rfl

/-- C6 (witness): the string `#A1b2C3` round-trips to `#a1b2c3`. -/
theorem claim6_witness :
    ∃ col, RGB.from_hex_string [35, 65, 49, 98, 50, 67, 51] = some col ∧
      col.display = [35, 97, 49, 98, 50, 99, 51] := by
  obtain ⟨col, hc, hd⟩ := claim6_hex_roundtrip 65 49 98 50 67 51 (by decide)
    (by decide) (by decide) (by decide) (by decide) (by decide)
  refine ⟨col, hc, ?_⟩
  rw [hd]
  rfl

/-- C7: `from_hex_string` succeeds exactly on byte strings matching the
prefix regex `^#[A-Fa-f0-9]{6}`; trailing bytes after the 7-byte prefix are
ignored (parsing a string equals parsing its 7-byte prefix); the channels are
decoded from the digit pairs at positions 1–2, 3–4, 5–6; and when the prefix
is absent the function panics and returns nothing. -/
theorem claim7_parse_spec (s : List ℕ) :
    ((RGB.from_hex_string s).isSome ↔ hexRegexMatches s = true) ∧
    (∀ c0 c1 c2 c3 c4 c5 c6 rest,
      s = c0 :: c1 :: c2 :: c3 :: c4 :: c5 :: c6 :: rest →
      hexRegexMatches s = true →
      RGB.from_hex_string s =
        some (RGB.new (hexVal c1 * 16 + hexVal c2) (hexVal c3 * 16 + hexVal c4)
          (hexVal c5 * 16 + hexVal c6)) ∧
      RGB.from_hex_string s =
        RGB.from_hex_string [c0, c1, c2, c3, c4, c5, c6]) ∧
    (hexRegexMatches s = false → RGB.from_hex_string s = none) := by
  rcases s with _ | ⟨c0, _ | ⟨c1, _ | ⟨c2, _ | ⟨c3, _ | ⟨c4, _ | ⟨c5, _ | ⟨c6, rest⟩⟩⟩⟩⟩⟩⟩
  case nil =>
    refine ⟨by simp [RGB.from_hex_string, hexRegexMatches], ?_, fun _ => rfl⟩
    intro a b c d e f g r h
    simp at h
  case cons.nil =>
    refine ⟨by simp [RGB.from_hex_string, hexRegexMatches], ?_, fun _ => rfl⟩
    intro a b c d e f g r h
    simp at h
  case cons.cons.nil =>
    refine ⟨by simp [RGB.from_hex_string, hexRegexMatches], ?_, fun _ => rfl⟩
    intro a b c d e f g r h
    simp at h
  case cons.cons.cons.nil =>
    refine ⟨by simp [RGB.from_hex_string, hexRegexMatches], ?_, fun _ => rfl⟩
    intro a b c d e f g r h
    simp at h
  case cons.cons.cons.cons.nil =>
    refine ⟨by simp [RGB.from_hex_string, hexRegexMatches], ?_, fun _ => rfl⟩
    intro a b c d e f g r h
    simp at h
  case cons.cons.cons.cons.cons.nil =>
    refine ⟨by simp [RGB.from_hex_string, hexRegexMatches], ?_, fun _ => rfl⟩
    intro a b c d e f g r h
    simp at h
  case cons.cons.cons.cons.cons.cons.nil =>
    refine ⟨by simp [RGB.from_hex_string, hexRegexMatches], ?_, fun _ => rfl⟩
    intro a b c d e f g r h
    simp at h
  case cons.cons.cons.cons.cons.cons.cons =>
    by_cases hm : hexRegexMatches (c0 :: c1 :: c2 :: c3 :: c4 :: c5 :: c6 :: rest) = true
    · have hm' : hexRegexMatches [c0, c1, c2, c3, c4, c5, c6] = true := hm
      refine ⟨?_, ?_, ?_⟩
      · unfold RGB.from_hex_string
        rw [if_pos hm]
        simp [hm]
      · intro a b c d e f g r heq hmm
        cases heq
        constructor
        · unfold RGB.from_hex_string
          rw [if_pos hm]
        · unfold RGB.from_hex_string
          rw [if_pos hm, if_pos hm']
      · intro hfalse
        rw [hm] at hfalse
        cases hfalse
    · have hfalse : hexRegexMatches (c0 :: c1 :: c2 :: c3 :: c4 :: c5 :: c6 :: rest) = false :=
        Bool.not_eq_true _ |>.mp hm
      refine ⟨?_, ?_, ?_⟩
      · unfold RGB.from_hex_string
        rw [if_neg hm]
        simp [hfalse]
      · intro a b c d e f g r heq hmm
        cases heq
        exact absurd hmm hm
      · intro _
        unfold RGB.from_hex_string
        rw [if_neg hm]

/-- C7 (witness): `#A1b2C3` with trailing junk parses to the same colour as
its 7-byte prefix, decoding the three channel pairs. -/
theorem claim7_witness :
    RGB.from_hex_string [35, 65, 49, 98, 50, 67, 51, 120, 120] =
      some (RGB.new 161 178 195) ∧
    RGB.from_hex_string [35, 65, 49, 98, 50, 67, 51, 120, 120] =
      RGB.from_hex_string [35, 65, 49, 98, 50, 67, 51] := by
  have h := (claim7_parse_spec [35, 65, 49, 98, 50, 67, 51, 120, 120]).2.1
    35 65 49 98 50 67 51 [120, 120] rfl (by decide)
  refine ⟨?_, h.2⟩
  rw [h.1]
  rfl

/-- C8: blending a well-formed colour with itself under complementary
representable weights `a` and `1 - a` (with `a ∈ [0, 1]`) passes the
assertion and returns the colour itself up to one unit of integer truncation
per channel (the result never exceeds the original). -/
theorem claim8_blend_self (c : RGB) (hwf : c.wf) (a : ℚ) (h0 : 0 ≤ a) (h1 : a ≤ 1)
    (hfa : isF64 a) (hfb : isF64 (1 - a)) :
    ∃ c', RGB.blend c c a (1 - a) = some c' ∧
      c'.r ≤ c.r ∧ c.r ≤ c'.r + 1 ∧
      c'.g ≤ c.g ∧ c.g ≤ c'.g + 1 ∧
      c'.b ≤ c.b ∧ c.b ≤ c'.b + 1 := by
  obtain ⟨hr, hg, hb⟩ := hwf
  have hsum : f64add a (1 - a) = 1 := by
    unfold f64add
    rw [show a + (1 - a) = 1 by ring, rnd_one]
  refine ⟨_, blend_of_sum_one hsum, ?_, ?_, ?_, ?_, ?_, ?_⟩ <;>
    · unfold RGB.add RGB.mulF
      dsimp only
      first
      | exact (channel_blend_self hr h0 h1).1
      | exact (channel_blend_self hr h0 h1).2
      | exact (channel_blend_self hg h0 h1).1
      | exact (channel_blend_self hg h0 h1).2
      | exact (channel_blend_self hb h0 h1).1
      | exact (channel_blend_self hb h0 h1).2

/-- C8 (witness): `1/4` and `3/4` are exact binary64 values; blending
`(10, 20, 255)` with itself under them stays within truncation tolerance. -/
theorem claim8_witness :
    ∃ c', RGB.blend ⟨10, 20, 255⟩ ⟨10, 20, 255⟩ (1/4) (1 - 1/4) = some c' ∧
      c'.r ≤ 10 ∧ 10 ≤ c'.r + 1 ∧
      c'.g ≤ 20 ∧ 20 ≤ c'.g + 1 ∧
      c'.b ≤ 255 ∧ 255 ≤ c'.b + 1 := by
  have hfa : isF64 (1/4 : ℚ) := by
    unfold isF64
    have he : f64exp (1/4 : ℚ) = -2 := f64exp_eq (by norm_num) (by norm_num)
    refine rnd_exact (by norm_num) (m := 2 ^ 52) ?_
    rw [he]
    norm_num
  have hfb : isF64 (1 - 1/4 : ℚ) := by
    unfold isF64
    have he : f64exp (1 - 1/4 : ℚ) = -1 := f64exp_eq (by norm_num) (by norm_num)
    refine rnd_exact (by norm_num) (m := 3 * 2 ^ 51) ?_
    rw [he]
    norm_num
  exact claim8_blend_self ⟨10, 20, 255⟩ ⟨by norm_num, by norm_num, by norm_num⟩
    (1/4) (by norm_num) (by norm_num) hfa hfb

/-- C9: when `steps` fits in a `u32`, `generate_image` on a constructed
gradient produces a 600-by-`steps` image in which every pixel of row `i`
carries gradient sample `i`. -/
theorem claim9_render_spec (start end_ : RGB) (N : ℕ) (g : Gradient)
    (hnew : Gradient.new start end_ N = some g) (h32 : N < 2 ^ 32) :
    ∃ img, g.generate_image = some img ∧ img.width = 600 ∧ img.height = N ∧
      ∀ i, i < N → ∀ j, j < 600 →
        some (img.pix i j) = gradientSample start end_ N i := by
  unfold Gradient.new at hnew
  cases hgen : generate_gradient start end_ N with
  | none =>
    rw [hgen] at hnew
    cases hnew
  | some l =>
    rw [hgen] at hnew
    simp only [Option.map_some', Option.some.injEq] at hnew
    subst hnew
    unfold Gradient.generate_image
    dsimp only
    rw [if_pos h32]
    refine ⟨_, rfl, rfl, rfl, ?_⟩
    intro i hi j _
    have h2 := (generate_gradient_forall2 hgen).2 i hi
    dsimp only
    rw [h2]

/-- C9 (witness): a one-step gradient renders as a 600x1 image whose single
row is gradient sample 0. -/
theorem claim9_witness :
    ∃ img, Gradient.generate_image ⟨[⟨1, 2, 3⟩], ⟨0, 0, 0⟩, ⟨1, 2, 3⟩, 1⟩ = some img ∧
      img.width = 600 ∧ img.height = 1 ∧
      ∀ i, i < 1 → ∀ j, j < 600 →
        some (img.pix i j) = gradientSample ⟨0, 0, 0⟩ ⟨1, 2, 3⟩ 1 i := by
  have hg : generate_gradient ⟨0, 0, 0⟩ ⟨1, 2, 3⟩ 1 = some [⟨1, 2, 3⟩] := by
    unfold generate_gradient
    rw [show List.range 1 = [0] from rfl]
    unfold optionMap
    rw [gradientSample_zero (by norm_num) ⟨by norm_num, by norm_num, by norm_num⟩]
    rfl
  have hnew : Gradient.new ⟨0, 0, 0⟩ ⟨1, 2, 3⟩ 1 =
      some ⟨[⟨1, 2, 3⟩], ⟨0, 0, 0⟩, ⟨1, 2, 3⟩, 1⟩ := by
    unfold Gradient.new
    rw [hg]
    rfl
  exact claim9_render_spec ⟨0, 0, 0⟩ ⟨1, 2, 3⟩ 1 _ hnew (by norm_num)

/-- C10: a step count of zero is a safe edge case: the loop body never runs,
no division by zero is evaluated, and the result is the empty sequence. -/
theorem claim10_zero_steps (start end_ : RGB) :
    generate_gradient start end_ 0 = some [] := rfl
